import Mathlib

/-!
Verification of `finetune_lm.py`: a shallow embedding of the script's core
logic (split building, the BERT classifier head, its loss, the mean-pooling
helper, the NCDataset wrapper and the multi-seed experiment driver), together
with theorems settling the specified properties.

Real-valued tensors are modelled as (nested) lists over `ℝ`; machine floats
are idealised as real numbers.  Fallible Torch operations are modelled with
`Except String`.
-/

namespace FinetuneLM

/-! ## Split Builder (`finetune_lm.py` lines 126-131 and `collect_txt`, lines 66-70)

`data.train_mask.nonzero()` on a 1-D boolean tensor of length `N` returns the
indices of the `True` entries in ascending order (as an `K × 1` tensor);
`.squeeze()` removes every dimension of size 1, and `.tolist()` converts the
result to a Python value.  For `K ≠ 1` the result is the plain ascending list
of indices; for `K = 1` squeezing produces a 0-dimensional tensor, so
`.tolist()` yields a bare Python int (a scalar, not a list).
-/

/-- Indices of the `true` entries of a boolean mask, starting the numbering
at `n`: the recursion mirrors row-major enumeration of `torch.nonzero`. -/
def nonzeroIdxFrom : ℕ → List Bool → List ℕ
  | _, [] => []
  | n, b :: rest =>
    if b then n :: nonzeroIdxFrom (n + 1) rest else nonzeroIdxFrom (n + 1) rest

/-- Model of `mask.nonzero()` flattened: ascending indices of the true entries. -/
def nonzeroIdx (mask : List Bool) : List ℕ :=
  nonzeroIdxFrom 0 mask

/-- Model of `mask.nonzero().squeeze().tolist()`.  `Sum.inl` is the scalar branch:
when exactly one entry is true, `squeeze` yields a 0-dimensional tensor and
`tolist` returns a bare integer rather than a list. -/
def nonzeroSqueezeTolist (mask : List Bool) : Sum ℕ (List ℕ) :=
  if (nonzeroIdx mask).length = 1 then Sum.inl ((nonzeroIdx mask).headD 0)
  else Sum.inr (nonzeroIdx mask)

/-- Model of `collect_txt(idx, txt)`: `tmp = []; for i in idx: tmp.append(txt[i]); return tmp`.
List indexing is modelled with `getD`. -/
def collect_txt (idx : List ℕ) (txt : List String) : List String :=
  idx.foldl (fun tmp i => tmp ++ [txt.getD i ""]) []

/-- Model of `data.y[train_idx]`: integer-tensor gather by an index list. -/
def tensorGather (y : List ℤ) (idx : List ℕ) : List ℤ :=
  idx.map (fun i => y.getD i 0)

/-- Specification-side description of a split: the subsequence of `xs` at the
mask-true positions, in order. -/
def maskTrueElems {α : Type} (mask : List Bool) (xs : List α) : List α :=
  ((xs.zip mask).filter (fun p => p.2)).map (fun p => p.1)

theorem collect_txt_eq_map (idx : List ℕ) (txt : List String) :
    collect_txt idx txt = idx.map (fun i => txt.getD i "") := by
  have h : ∀ (l : List ℕ) (acc : List String),
      List.foldl (fun tmp i => tmp ++ [txt.getD i ""]) acc l =
        acc ++ l.map (fun i => txt.getD i "") := by
    intro l
    induction l with
    | nil => intro acc; simp
    | cons i rest ih =>
      intro acc
      rw [List.foldl_cons, ih]
      simp
  simpa [collect_txt] using h idx []

theorem nonzeroIdxFrom_false (n : ℕ) (rest : List Bool) :
    nonzeroIdxFrom n (false :: rest) = nonzeroIdxFrom (n + 1) rest := by
  simp [nonzeroIdxFrom]

theorem nonzeroIdxFrom_true (n : ℕ) (rest : List Bool) :
    nonzeroIdxFrom n (true :: rest) = n :: nonzeroIdxFrom (n + 1) rest := by
  simp [nonzeroIdxFrom]

theorem nonzeroIdxFrom_length (mask : List Bool) :
    ∀ n : ℕ, (nonzeroIdxFrom n mask).length = mask.countP id := by
  induction mask with
  | nil => intro n; simp [nonzeroIdxFrom]
  | cons b rest ih =>
    intro n
    cases b with
    | false => simp [nonzeroIdxFrom_false, List.countP_cons, ih]
    | true => simp [nonzeroIdxFrom_true, List.countP_cons, ih]

theorem nonzeroIdxFrom_le (mask : List Bool) :
    ∀ n : ℕ, ∀ i ∈ nonzeroIdxFrom n mask, n ≤ i := by
  induction mask with
  | nil => intro n i hi; simp [nonzeroIdxFrom] at hi
  | cons b rest ih =>
    intro n i hi
    cases b with
    | false =>
      rw [nonzeroIdxFrom_false] at hi
      exact le_trans (Nat.le_succ n) (ih (n + 1) i hi)
    | true =>
      rw [nonzeroIdxFrom_true, List.mem_cons] at hi
      rcases hi with rfl | hi
      · exact le_refl i
      · exact le_trans (Nat.le_succ n) (ih (n + 1) i hi)

theorem nonzeroIdxFrom_pairwise (mask : List Bool) :
    ∀ n : ℕ, (nonzeroIdxFrom n mask).Pairwise (· < ·) := by
  induction mask with
  | nil => intro n; simp [nonzeroIdxFrom]
  | cons b rest ih =>
    intro n
    cases b with
    | false => rw [nonzeroIdxFrom_false]; exact ih (n + 1)
    | true =>
      rw [nonzeroIdxFrom_true]
      exact List.Pairwise.cons
        (fun i hi => lt_of_lt_of_le (Nat.lt_succ_self n) (nonzeroIdxFrom_le rest (n + 1) i hi))
        (ih (n + 1))

/-- Gathering any parallel sequence by the nonzero indices produces exactly the
subsequence at the mask-true positions, in order.  The accumulator `base`
carries the prefix already consumed. -/
theorem nonzeroIdxFrom_gather {α : Type} (d : α) (mask : List Bool) :
    ∀ (base txt : List α), txt.length = mask.length →
      (nonzeroIdxFrom base.length mask).map (fun i => (base ++ txt).getD i d) =
        maskTrueElems mask txt := by
  induction mask with
  | nil =>
    intro base txt hlen
    rw [List.length_nil, List.length_eq_zero] at hlen
    subst hlen
    simp [nonzeroIdxFrom, maskTrueElems]
  | cons b rest ih =>
    intro base txt hlen
    cases txt with
    | nil => simp at hlen
    | cons t ts =>
      have hts : ts.length = rest.length := by simpa using hlen
      have hsplit : base ++ t :: ts = (base ++ [t]) ++ ts := by simp
      have h2 := ih (base ++ [t]) ts hts
      rw [List.length_append, List.length_singleton] at h2
      rw [← hsplit] at h2
      cases b with
      | false =>
        rw [nonzeroIdxFrom_false, h2]
        simp [maskTrueElems]
      | true =>
        rw [nonzeroIdxFrom_true, List.map_cons, h2]
        have hhead : (base ++ t :: ts).getD base.length d = t := by
          rw [List.getD_append_right base (t :: ts) d base.length (le_refl _), Nat.sub_self]
          rfl
        rw [hhead]
        simp [maskTrueElems]

theorem nonzeroIdx_length (mask : List Bool) :
    (nonzeroIdx mask).length = mask.countP id :=
  nonzeroIdxFrom_length mask 0

theorem nonzeroIdx_pairwise (mask : List Bool) :
    (nonzeroIdx mask).Pairwise (· < ·) :=
  nonzeroIdxFrom_pairwise mask 0

theorem nonzeroIdx_gather {α : Type} (d : α) (mask : List Bool) (txt : List α)
    (hlen : txt.length = mask.length) :
    (nonzeroIdx mask).map (fun i => txt.getD i d) = maskTrueElems mask txt := by
  have := nonzeroIdxFrom_gather d mask [] txt hlen
  simpa [nonzeroIdx] using this

/-- C1 counterexample: on the mask `[false, true]`, which has exactly one true
entry, `nonzero().squeeze().tolist()` yields the bare scalar `1` (the
`Sum.inl` branch), not an index list, so the claim that the conversion
returns an index list for every boolean mask is false: iterating over it in
`collect_txt` would raise a `TypeError`. -/
theorem claim_C1_counterexample :
    nonzeroSqueezeTolist [false, true] = Sum.inl 1 := by decide

/-- C1 (amended): for every boolean mask whose number of true entries is not
exactly one, the Split Builder's mask-to-index conversion returns an index
list whose length equals the number of true entries of the mask, whose
entries are strictly ascending node ids, and gathering texts/labels by that
list yields exactly the texts/labels at the mask-true positions, in order.
(For a mask with exactly one true entry, `squeeze().tolist()` instead yields
a bare scalar index.) -/
theorem claim_C1_split_builder (mask : List Bool) (txt : List String) (y : List ℤ)
    (hc : mask.countP id ≠ 1) (ht : txt.length = mask.length)
    (hy : y.length = mask.length) :
    nonzeroSqueezeTolist mask = Sum.inr (nonzeroIdx mask) ∧
    (nonzeroIdx mask).length = mask.countP id ∧
    (nonzeroIdx mask).Pairwise (· < ·) ∧
    collect_txt (nonzeroIdx mask) txt = maskTrueElems mask txt ∧
    tensorGather y (nonzeroIdx mask) = maskTrueElems mask y := by
  refine ⟨?_, nonzeroIdx_length mask, nonzeroIdx_pairwise mask, ?_, ?_⟩
  · unfold nonzeroSqueezeTolist
    rw [if_neg (by rw [nonzeroIdx_length]; exact hc)]
  · rw [collect_txt_eq_map]
    exact nonzeroIdx_gather "" mask txt ht
  · exact nonzeroIdx_gather 0 mask y hy

theorem claim_C1_witness :
    ([true, false, true] : List Bool).countP id ≠ 1 ∧
    (["a", "b", "c"] : List String).length = ([true, false, true] : List Bool).length ∧
    ([5, 6, 7] : List ℤ).length = ([true, false, true] : List Bool).length ∧
    (nonzeroSqueezeTolist [true, false, true] = Sum.inr (nonzeroIdx [true, false, true]) ∧
      (nonzeroIdx [true, false, true]).length = ([true, false, true] : List Bool).countP id ∧
      (nonzeroIdx [true, false, true]).Pairwise (· < ·) ∧
      collect_txt (nonzeroIdx [true, false, true]) ["a", "b", "c"] =
        maskTrueElems [true, false, true] ["a", "b", "c"] ∧
      tensorGather [5, 6, 7] (nonzeroIdx [true, false, true]) =
        maskTrueElems [true, false, true] [5, 6, 7]) :=
  ⟨by decide, by decide, by decide,
    claim_C1_split_builder [true, false, true] ["a", "b", "c"] [5, 6, 7]
      (by decide) (by decide) (by decide)⟩

/-- C6: for every boolean mask with zero true entries, the Split Builder
yields an empty index list (here `squeeze().tolist()` does return a list:
the empty one), and gathering texts by that empty index list yields an
empty text subsequence. -/
theorem claim_C6_empty_split (mask : List Bool) (txt : List String)
    (h : mask.countP id = 0) :
    nonzeroIdx mask = [] ∧
    nonzeroSqueezeTolist mask = Sum.inr [] ∧
    collect_txt (nonzeroIdx mask) txt = [] := by
  have hnil : nonzeroIdx mask = [] :=
    List.length_eq_zero.mp (by rw [nonzeroIdx_length]; exact h)
  refine ⟨hnil, ?_, ?_⟩
  · unfold nonzeroSqueezeTolist
    rw [if_neg (by rw [nonzeroIdx_length, h]; decide), hnil]
  · rw [hnil, collect_txt_eq_map]
    simp

theorem claim_C6_witness :
    ([false, false] : List Bool).countP id = 0 ∧
    (nonzeroIdx [false, false] = [] ∧
      nonzeroSqueezeTolist [false, false] = Sum.inr [] ∧
      collect_txt (nonzeroIdx [false, false]) ["x"] = []) :=
  ⟨by decide, claim_C6_empty_split [false, false] ["x"] (by decide)⟩

/-! ## Accuracy aggregation (`finetune_lm.py` lines 186-187)

`np.mean` and `np.std` over the accumulated accuracy list; `np.std` with its
default `ddof=0` is the population standard deviation (divisor `N`). -/

/-- Model of `np.mean(xs)`.  Float arithmetic is idealised as exact rational
arithmetic. -/
def npMean (xs : List ℚ) : ℚ := xs.sum / xs.length

/-- Model of `np.var(xs)` with the default `ddof=0`: mean squared deviation, divisor `N`. -/
def npVar (xs : List ℚ) : ℚ := (xs.map (fun x => (x - npMean xs) ^ 2)).sum / xs.length

/-- Model of `np.std(xs)` with the default `ddof=0`: square root of the population
variance (an irrational real in general, hence valued in `ℝ`). -/
noncomputable def npStd (xs : List ℚ) : ℝ := Real.sqrt ((npVar xs : ℚ) : ℝ)

/-- Line 186: `final_acc, final_acc_std = np.mean(acc_list), np.std(acc_list)`. -/
noncomputable def finalStats (acc_list : List ℚ) : ℚ × ℝ :=
  (npMean acc_list, npStd acc_list)

/-- The concrete five-seed accuracy list from the claim. -/
def seedAccuracies : List ℚ := [0.70, 0.72, 0.75, 0.71, 0.73]

/-- C5: the driver reports the arithmetic mean and the population standard
deviation (divisor `N = 5`, not `N - 1`) of the accumulated accuracies; on
`[0.70, 0.72, 0.75, 0.71, 0.73]` the mean is exactly `0.722`, the population
variance is exactly `0.000296`, and the population standard deviation is
within `10⁻⁴` of `0.0172`.  (The `±`-percentage string of line 187 is console
output and is not modelled; its numeric content is these two statistics.) -/
theorem claim_C5_accuracy_aggregation :
    (finalStats seedAccuracies).1 = 0.722 ∧
    npVar seedAccuracies = 0.000296 ∧
    |(finalStats seedAccuracies).2 - 0.0172| < 0.0001 := by
  have hmean : npMean seedAccuracies = 0.722 := by
    norm_num [npMean, seedAccuracies]
  have hvar : npVar seedAccuracies = 0.000296 := by
    unfold npVar
    rw [hmean]
    norm_num [seedAccuracies]
  refine ⟨hmean, hvar, ?_⟩
  have hstd : (finalStats seedAccuracies).2 = Real.sqrt 0.000296 := by
    show npStd seedAccuracies = _
    rw [npStd, hvar]
    norm_num
  rw [hstd, abs_lt]
  constructor
  · have h1 : (0.0172 : ℝ) < Real.sqrt 0.000296 :=
      (Real.lt_sqrt (by norm_num)).mpr (by norm_num)
    linarith
  · have h2 : Real.sqrt 0.000296 < (0.0173 : ℝ) :=
      (Real.sqrt_lt' (by norm_num)).mpr (by norm_num)
    linarith

/-! ## Mean-pooling helper (`finetune_lm.py` lines 73-76)

`mean_pooling(model_output, attention_mask)` computes, per batch example,
the attention-weighted average of the token embeddings:
`torch.sum(token_embeddings * input_mask_expanded, 1) /
 torch.clamp(input_mask_expanded.sum(1), min=1e-9)`.
Tensors are modelled as nested lists (batch × seq × hidden); elementwise
operations over rectangular tensors by nested `zipWith`/index maps. -/

/-- One batch row of `attention_mask.unsqueeze(-1).expand(token_embeddings.size())`:
each mask weight is broadcast across the hidden dimension of its token. -/
def expandRow (e : List (List ℚ)) (m : List ℚ) : List (List ℚ) :=
  (e.zip m).map (fun tm => tm.1.map (fun _ => tm.2))

/-- Model of `attention_mask.unsqueeze(-1).expand(token_embeddings.size()).float()`. -/
def inputMaskExpanded (emb : List (List (List ℚ))) (mask : List (List ℚ)) :
    List (List (List ℚ)) :=
  (emb.zip mask).map (fun bm => expandRow bm.1 bm.2)

/-- Column sums of a (seq × hidden) matrix: `torch.sum(·, dim 0)` of one
batch slice, so that mapping it over the batch is `torch.sum(·, 1)`. -/
def colSums (mat : List (List ℚ)) : List ℚ :=
  (List.range (mat.headD []).length).map
    (fun h => (mat.map (fun row => row.getD h 0)).sum)

/-- Model of `torch.sum(t, 1)` on a (batch × seq × hidden) tensor. -/
def sumDim1 (t : List (List (List ℚ))) : List (List ℚ) := t.map colSums

/-- Model of `torch.clamp(t, min = c)` on a (batch × hidden) tensor. -/
def clampMin (c : ℚ) (t : List (List ℚ)) : List (List ℚ) :=
  t.map (fun row => row.map (fun x => max x c))

/-- Model of `mean_pooling(model_output, attention_mask)` (lines 73-76). -/
def mean_pooling (model_output : List (List (List ℚ))) (attention_mask : List (List ℚ)) :
    List (List ℚ) :=
  List.zipWith (List.zipWith (· / ·))
    (sumDim1 (List.zipWith (List.zipWith (List.zipWith (· * ·)))
      model_output (inputMaskExpanded model_output attention_mask)))
    (clampMin (1 / 1000000000) (sumDim1 (inputMaskExpanded model_output attention_mask)))

theorem exists_of_mem_zipWith {α β γ : Type} (f : α → β → γ) :
    ∀ (l₁ : List α) (l₂ : List β), ∀ x ∈ List.zipWith f l₁ l₂,
      ∃ a ∈ l₁, ∃ b ∈ l₂, x = f a b := by
  intro l₁
  induction l₁ with
  | nil => intro l₂ x hx; simp at hx
  | cons a as ih =>
    intro l₂ x hx
    cases l₂ with
    | nil => simp at hx
    | cons b bs =>
      rw [List.zipWith_cons_cons] at hx
      rcases List.mem_cons.mp hx with rfl | hx
      · exact ⟨a, List.mem_cons_self a as, b, List.mem_cons_self b bs, rfl⟩
      · obtain ⟨a', ha, b', hb, rfl⟩ := ih bs x hx
        exact ⟨a', List.mem_cons_of_mem a ha, b', List.mem_cons_of_mem b hb, rfl⟩

theorem getD_zero_of_all_zero (row : List ℚ) (h : ∀ x ∈ row, x = 0) (k : ℕ) :
    row.getD k 0 = 0 := by
  rcases Nat.lt_or_ge k row.length with hk | hk
  · rw [List.getD_eq_getElem row 0 hk]
    exact h _ (List.getElem_mem hk)
  · exact List.getD_eq_default row 0 hk

theorem colSums_of_all_zero (mat : List (List ℚ))
    (h : ∀ row ∈ mat, ∀ x ∈ row, x = 0) :
    ∀ x ∈ colSums mat, x = 0 := by
  intro x hx
  obtain ⟨k, hk, rfl⟩ := List.mem_map.mp hx
  apply List.sum_eq_zero
  intro v hv
  obtain ⟨row, hrow, rfl⟩ := List.mem_map.mp hv
  exact getD_zero_of_all_zero row (h row hrow) k

theorem expandRow_all_zero (e : List (List ℚ)) (m : List ℚ) (hm : ∀ x ∈ m, x = 0) :
    ∀ row ∈ expandRow e m, ∀ x ∈ row, x = 0 := by
  intro row hrow x hx
  obtain ⟨tm, htm, rfl⟩ := List.mem_map.mp hrow
  obtain ⟨w, hw, hx2⟩ := List.mem_map.mp hx
  rw [← hx2]
  exact hm tm.2 (List.of_mem_zip htm).2

/-- The function `mean_pooling` peels off the leading batch example. -/
theorem mean_pooling_cons (e : List (List ℚ)) (m : List ℚ)
    (es : List (List (List ℚ))) (ms : List (List ℚ)) :
    mean_pooling (e :: es) (m :: ms) =
      List.zipWith (· / ·)
        (colSums (List.zipWith (List.zipWith (· * ·)) e (expandRow e m)))
        ((colSums (expandRow e m)).map (fun x => max x (1 / 1000000000)))
      :: mean_pooling es ms := by
  simp [mean_pooling, inputMaskExpanded, sumDim1, clampMin]

/-- A batch example whose mask row is all zeros pools to an all-zero
(finite) row: its numerator entries are all zero and its clamped denominator
is `1e-9`. -/
theorem mean_pooling_zero_row :
    ∀ (emb : List (List (List ℚ))) (mask : List (List ℚ)) (b : ℕ),
      (∀ x ∈ mask.getD b [], x = 0) →
      ∀ x ∈ (mean_pooling emb mask).getD b [], x = 0 := by
  intro emb
  induction emb with
  | nil =>
    intro mask b _ x hx
    simp [mean_pooling, inputMaskExpanded, sumDim1, clampMin] at hx
  | cons e es ih =>
    intro mask b hb x hx
    cases mask with
    | nil => simp [mean_pooling, inputMaskExpanded, sumDim1, clampMin] at hx
    | cons m ms =>
      rw [mean_pooling_cons] at hx
      cases b with
      | zero =>
        simp only [List.getD_cons_zero] at hx hb
        obtain ⟨num, hnum, den, hden, rfl⟩ :=
          exists_of_mem_zipWith (· / ·) _ _ x hx
        have hz : num = 0 := by
          apply colSums_of_all_zero _ _ num hnum
          intro row hrow y hy
          obtain ⟨erow, _, mrow, hmrow, rfl⟩ :=
            exists_of_mem_zipWith (List.zipWith (· * ·)) _ _ row hrow
          obtain ⟨a, _, b', hb', rfl⟩ := exists_of_mem_zipWith (· * ·) _ _ y hy
          rw [expandRow_all_zero e m hb mrow hmrow b' hb', mul_zero]
        rw [hz, zero_div]
      | succ b =>
        simp only [List.getD_cons_succ] at hx hb
        exact ih ms b hb x hx

/-- C7: the denominator of `mean_pooling` is floor-clamped at `1e-9`: every
clamped entry is at least `1e-9` and in particular nonzero, so the division
never divides by zero; and a batch example whose attention-mask row is
all-false (all zeros after `.float()`) pools to the all-zero row — a finite
result. -/
theorem claim_C7_mean_pooling_clamp (emb : List (List (List ℚ)))
    (mask : List (List ℚ)) (b : ℕ)
    (hb : ∀ x ∈ mask.getD b [], x = 0) :
    (∀ row ∈ clampMin (1 / 1000000000) (sumDim1 (inputMaskExpanded emb mask)),
      ∀ x ∈ row, 1 / 1000000000 ≤ x ∧ x ≠ 0) ∧
    (∀ x ∈ (mean_pooling emb mask).getD b [], x = 0) := by
  constructor
  · intro row hrow x hx
    obtain ⟨r, _, rfl⟩ := List.mem_map.mp hrow
    obtain ⟨v, _, rfl⟩ := List.mem_map.mp hx
    have hle : (1 : ℚ) / 1000000000 ≤ max v (1 / 1000000000) := le_max_right _ _
    exact ⟨hle, by positivity⟩
  · exact mean_pooling_zero_row emb mask b hb

theorem claim_C7_witness :
    (∀ x ∈ ([[0, 0]] : List (List ℚ)).getD 0 [], x = 0) ∧
    ((∀ row ∈ clampMin (1 / 1000000000)
        (sumDim1 (inputMaskExpanded [[[1, 2], [3, 4]]] [[0, 0]])),
      ∀ x ∈ row, 1 / 1000000000 ≤ x ∧ x ≠ 0) ∧
    (∀ x ∈ (mean_pooling [[[1, 2], [3, 4]]] [[0, 0]]).getD 0 [], x = 0)) :=
  ⟨by norm_num, claim_C7_mean_pooling_clamp [[[1, 2], [3, 4]]] [[0, 0]] 0 (by norm_num)⟩

/-! ## NCDataset (`finetune_lm.py` lines 11-22)

A torch `Dataset` wrapping tokenizer encodings and a label tensor.  The
`encodings` dict is modelled as an association list of field name to
per-example value list; `__getitem__` builds a Python dict, modelled as an
association list with dict-assignment semantics. -/

/-- Model of `NCDataset(encodings, labels)`. -/
structure NCDataset (V : Type) where
  encodings : List (String × List V)
  labels : List V

/-- Model of `__len__`: `len(self.labels)`. -/
def NCDataset.len {V : Type} (d : NCDataset V) : ℕ := d.labels.length

/-- Python dict assignment `m[k] = v`: overwrite an existing binding in
place, else append a new binding at the end. -/
def dictSet {V : Type} (m : List (String × V)) (k : String) (v : V) :
    List (String × V) :=
  if m.any (fun p => p.1 == k) then
    m.map (fun p => if p.1 == k then (k, v) else p)
  else m ++ [(k, v)]

/-- Model of `__getitem__`:
`item = {key: val[idx] for key, val in self.encodings.items()}` followed by
`item['labels'] = self.labels[idx]`.  Tensor indexing `val[idx]` is modelled
by `·[idx]?` (`none` models the index error). -/
def NCDataset.getitem {V : Type} (d : NCDataset V) (idx : ℕ) :
    List (String × Option V) :=
  dictSet (d.encodings.map (fun kv => (kv.1, kv.2[idx]?))) "labels" d.labels[idx]?

theorem lookup_overwrite {V : Type} (k : String) (v : V) :
    ∀ m : List (String × V), m.any (fun p => p.1 == k) = true →
      (m.map (fun p => if p.1 == k then (k, v) else p)).lookup k = some v := by
  intro m
  induction m with
  | nil => intro h; simp at h
  | cons p t ih =>
    intro h
    rw [List.map_cons]
    by_cases hp : p.1 = k
    · rw [if_pos (by simp [hp]), List.lookup_cons]
      simp
    · rw [if_neg (by simp [hp]), List.lookup_cons]
      have hk : (k == p.1) = false := by simp [Ne.symm hp]
      rw [hk]
      apply ih
      simpa [hp] using h

theorem lookup_eq_none_of_no_key {V : Type} (k : String) :
    ∀ m : List (String × V), m.any (fun p => p.1 == k) = false →
      m.lookup k = none := by
  intro m
  induction m with
  | nil => intro _; simp
  | cons p t ih =>
    intro h
    simp only [List.any_cons, Bool.or_eq_false_iff] at h
    rw [List.lookup_cons]
    have hk : (k == p.1) = false := by
      rcases Bool.eq_false_iff.mp h.1 with _
      simp only [beq_eq_false_iff_ne] at h ⊢
      exact fun heq => h.1 heq.symm
    rw [hk]
    exact ih h.2

theorem lookup_append_left_none {V : Type} (k : String) (l₂ : List (String × V)) :
    ∀ m : List (String × V), m.lookup k = none →
      (m ++ l₂).lookup k = l₂.lookup k := by
  intro m
  induction m with
  | nil => intro _; simp
  | cons p t ih =>
    intro h
    rw [List.lookup_cons] at h
    rw [List.cons_append, List.lookup_cons]
    cases hk : (k == p.1) with
    | true => rw [hk] at h; simp at h
    | false => rw [hk] at h; exact ih h

/-- The function `dictSet` binds `k` to `v` no matter what was bound before. -/
theorem lookup_dictSet_self {V : Type} (m : List (String × V)) (k : String) (v : V) :
    (dictSet m k v).lookup k = some v := by
  unfold dictSet
  by_cases h : m.any (fun p => p.1 == k) = true
  · rw [if_pos h]
    exact lookup_overwrite k v m h
  · rw [if_neg h]
    rw [lookup_append_left_none k _ m
      (lookup_eq_none_of_no_key k m (Bool.eq_false_iff.mpr h))]
    simp [List.lookup_cons]

/-- The function `dictSet` leaves every other key's binding unchanged. -/
theorem lookup_dictSet_other {V : Type} (m : List (String × V)) (k k' : String)
    (v : V) (hne : k' ≠ k) : (dictSet m k v).lookup k' = m.lookup k' := by
  unfold dictSet
  by_cases h : m.any (fun p => p.1 == k) = true
  · rw [if_pos h]
    clear h
    induction m with
    | nil => simp
    | cons p t ih =>
      rw [List.map_cons, List.lookup_cons]
      by_cases hp : p.1 = k
      · rw [if_pos (by simp [hp]), List.lookup_cons]
        have hk : (k' == k) = false := by simp [hne]
        rw [hk, show (k' == p.1) = false by simp [hp, hne]]
        exact ih
      · rw [if_neg (by simp [hp]), List.lookup_cons]
        cases hk : (k' == p.1) with
        | true => rfl
        | false => exact ih
  · rw [if_neg h]
    clear h
    induction m with
    | nil =>
      rw [List.nil_append, List.lookup_cons]
      have hk : (k' == k) = false := by simp [hne]
      rw [hk]
    | cons p t ih =>
      rw [List.cons_append, List.lookup_cons, List.lookup_cons]
      cases hk : (k' == p.1) with
      | true => rfl
      | false => exact ih

theorem lookup_map_of_nodup {V : Type} (idx : ℕ) :
    ∀ enc : List (String × List V), (enc.map (fun kv => kv.1)).Nodup →
      ∀ kv ∈ enc, (enc.map (fun p => (p.1, p.2[idx]?))).lookup kv.1 = some kv.2[idx]? := by
  intro enc
  induction enc with
  | nil => intro _ kv hkv; simp at hkv
  | cons p t ih =>
    intro hnd kv hkv
    rw [List.map_cons] at hnd ⊢
    rw [List.nodup_cons] at hnd
    rw [List.lookup_cons]
    rcases List.mem_cons.mp hkv with rfl | hkv
    · simp
    · have hne : (kv.1 == p.1) = false := by
        simp only [beq_eq_false_iff_ne]
        intro heq
        exact hnd.1 (heq ▸ List.mem_map_of_mem (fun kv => kv.1) hkv)
      rw [hne]
      exact ih hnd.2 kv hkv

/-- C10: for every NCDataset built from an encodings mapping and a labels
sequence, `len` equals the number of labels (whatever the encodings' lengths
are), and `__getitem__ idx` returns a mapping that binds every encoding
field name (other than `labels`) to that field's value at `idx`, plus a
`labels` key bound to the `idx`-th label — overwriting any encoding field
itself named `labels`. -/
theorem claim_C10_ncdataset {V : Type} (enc : List (String × List V))
    (labels : List V) (idx : ℕ)
    (hnd : (enc.map (fun kv => kv.1)).Nodup) (hidx : idx < labels.length) :
    (NCDataset.mk enc labels).len = labels.length ∧
    ((NCDataset.mk enc labels).getitem idx).lookup "labels" =
      some (some (labels.get ⟨idx, hidx⟩)) ∧
    ∀ kv ∈ enc, kv.1 ≠ "labels" →
      ((NCDataset.mk enc labels).getitem idx).lookup kv.1 = some kv.2[idx]? := by
  refine ⟨rfl, ?_, ?_⟩
  · rw [NCDataset.getitem, lookup_dictSet_self]
    simp [List.getElem?_eq_getElem hidx]
  · intro kv hkv hne
    rw [NCDataset.getitem, lookup_dictSet_other _ _ _ _ hne]
    exact lookup_map_of_nodup idx enc hnd kv hkv

theorem claim_C10_witness :
    (([("input_ids", [10, 11]), ("labels", [99, 98])] :
        List (String × List ℕ)).map (fun kv => kv.1)).Nodup ∧
    1 < ([5, 6] : List ℕ).length ∧
    ((NCDataset.mk [("input_ids", [10, 11]), ("labels", [99, 98])] [5, 6]).len =
        ([5, 6] : List ℕ).length ∧
      ((NCDataset.mk [("input_ids", [10, 11]), ("labels", [99, 98])]
          ([5, 6] : List ℕ)).getitem 1).lookup "labels" =
        some (some (([5, 6] : List ℕ).get ⟨1, by decide⟩)) ∧
      ∀ kv ∈ ([("input_ids", [10, 11]), ("labels", [99, 98])] :
          List (String × List ℕ)), kv.1 ≠ "labels" →
        ((NCDataset.mk [("input_ids", [10, 11]), ("labels", [99, 98])]
            ([5, 6] : List ℕ)).getitem 1).lookup kv.1 = some kv.2[1]?) :=
  ⟨by decide, by decide,
    claim_C10_ncdataset [("input_ids", [10, 11]), ("labels", [99, 98])] [5, 6] 1
      (by decide) (by decide)⟩

/-! ## BertClassifier (`finetune_lm.py` lines 24-64)

The classifier head wraps a pretrained encoder.  Tensor entries are
idealised as rationals; the loss, which needs `exp`/`log`, is valued in `ℝ`.
-/

/-- A pretrained `AutoModel` encoder: its configured hidden size and its
forward function from (input_ids, attention_mask) to all hidden-state layers
(layers × batch × seq × hidden), as requested by `output_hidden_states=True`. -/
structure Encoder where
  hidden_size : ℕ
  run : List (List ℤ) → List (List ℤ) → List (List (List (List ℚ)))

/-- Model of `nn.Linear` parameters: `weight` is out-features × in-features;
`bias = none` models `bias=False`. -/
structure Linear where
  weight : List (List ℚ)
  bias : Option (List ℚ)

def dotProduct (w x : List ℚ) : ℚ := (List.zipWith (· * ·) w x).sum

/-- Model of `nn.Linear.forward`: `x ↦ W x + b`, rowwise. -/
def Linear.apply (l : Linear) (x : List ℚ) : List ℚ :=
  match l.bias with
  | none => l.weight.map (fun w => dotProduct w x)
  | some b => List.zipWith (fun w bi => dotProduct w x + bi) l.weight b

inductive Reduction where
  | mean
  | sum
deriving DecidableEq

/-- The configuration of `nn.CrossEntropyLoss(label_smoothing=0.3,
reduction='mean')` built at lines 31-32. -/
structure CrossEntropyCfg where
  label_smoothing : ℚ
  reduction : Reduction

/-- The classifier head's state after `__init__` (lines 25-38). -/
structure BertClassifier where
  bert_encoder : Encoder
  dropout : ℚ
  loss_func : CrossEntropyCfg
  feat_shrink_layer : Option Linear
  classifier : Linear
  n_labels : ℕ

/-- Model of `BertClassifier.__init__(model, n_labels, dropout=0.0, seed=0,
cla_bias=True, feat_shrink='')`.  `freshLinear nin nout b` stands for the
framework's randomly initialised `nn.Linear(nin, nout, bias=b)` parameters;
`feat_shrink = none` models the empty (falsy) string, and the
`feat_shrink_layer` attribute exists exactly when `feat_shrink` is truthy.
The `seed` argument is unused by the source (`init_random_state` is
commented out). -/
def BertClassifier.init (freshLinear : ℕ → ℕ → Bool → Linear) (model : Encoder)
    (n_labels : ℕ) (dropout : ℚ := 0) (seed : ℕ := 0) (cla_bias : Bool := true)
    (feat_shrink : Option ℕ := none) : BertClassifier :=
  { bert_encoder := model
    dropout := dropout
    loss_func := { label_smoothing := 3 / 10, reduction := Reduction.mean }
    feat_shrink_layer :=
      feat_shrink.map (fun k => freshLinear model.hidden_size k cla_bias)
    classifier := freshLinear
      (match feat_shrink with | some k => k | none => model.hidden_size)
      n_labels cla_bias
    n_labels := n_labels }

/-- Model of `nn.Dropout(p)` on a tensor.  The script only constructs dropout with
the default `p = 0`, where dropout is the identity map in training mode as
well as in evaluation mode (and evaluation-mode dropout is the identity for
every `p`); this deterministic fragment is what is modelled. -/
def dropoutApply (p : ℚ) (t : List (List (List ℚ))) : List (List (List ℚ)) := t

/-- Model of `t.permute(1, 0, 2)` on a rectangular batch × seq × hidden tensor:
entry `[s][b]` of the result is `t[b][s]`; the sequence length is read off
the first batch element. -/
def permute102 (t : List (List (List ℚ))) : List (List (List ℚ)) :=
  (List.range (t.headD []).length).map (fun s => t.map (fun row => row.getD s []))

/-- Lines 56-58: the optional `feat_shrink` projection followed by the final
`classifier` layer, on the pooled batch of CLS embeddings. -/
def BertClassifier.applyHead (C : BertClassifier)
    (cls_token_emb : List (List ℚ)) : List (List ℚ) :=
  (match C.feat_shrink_layer with
   | some layer => cls_token_emb.map layer.apply
   | none => cls_token_emb).map C.classifier.apply

/-- The logits of `forward` (lines 48-58): run the encoder with all hidden
states, take `outputs['hidden_states'][-1]`, dropout, pool position 0 of
every batch item via `emb.permute(1, 0, 2)[0]`, then `applyHead`. -/
def BertClassifier.computeLogits (C : BertClassifier)
    (input_ids attention_mask : List (List ℤ)) : List (List ℚ) :=
  C.applyHead ((permute102 (dropoutApply C.dropout
    ((C.bert_encoder.run input_ids attention_mask).getLastD []))).headD [])

/-- The value `log ∑ exp` of a logit row, over `ℝ`. -/
noncomputable def logSumExp (z : List ℚ) : ℝ :=
  Real.log ((z.map (fun c => Real.exp ((c : ℚ) : ℝ))).sum)

/-- PyTorch's per-sample cross entropy of a logit row `z` against target `y`
with label smoothing `ε`: `∑_c ((1-ε)·1[c=y] + ε/C) · (logSumExp z - z_c)`
with `C = z.length` classes. -/
noncomputable def smoothedSampleCE (eps : ℚ) (z : List ℚ) (y : ℕ) : ℝ :=
  ((List.range z.length).map (fun c =>
    (((1 - eps : ℚ) : ℝ) * (if c = y then 1 else 0) +
        ((eps : ℚ) : ℝ) / (z.length : ℝ)) *
      (logSumExp z - ((z.getD c 0 : ℚ) : ℝ)))).sum

/-- Model of `nn.CrossEntropyLoss(label_smoothing=ε, reduction=·)(logits, labels)`:
raises on `None` labels, raises on a batch-size mismatch or a target outside
`[0, C)`, and otherwise reduces the per-sample smoothed cross entropies. -/
noncomputable def crossEntropyLoss (cfg : CrossEntropyCfg)
    (logits : List (List ℚ)) (labels : Option (List ℕ)) : Except String ℝ :=
  match labels with
  | none => Except.error "cross_entropy: labels is None"
  | some ys =>
    if ys.length = logits.length ∧ ∀ zy ∈ logits.zip ys, zy.2 < zy.1.length then
      Except.ok
        (match cfg.reduction with
         | Reduction.mean =>
            (List.zipWith (smoothedSampleCE cfg.label_smoothing) logits ys).sum /
              (logits.length : ℝ)
         | Reduction.sum =>
            (List.zipWith (smoothedSampleCE cfg.label_smoothing) logits ys).sum)
    else Except.error "cross_entropy: target out of range"

/-- Model of `forward` (lines 41-64): `loss = self.loss_func(logits, labels)` is
evaluated unconditionally at line 62 and
`TokenClassifierOutput(loss, logits)` is returned. -/
noncomputable def BertClassifier.forward (C : BertClassifier)
    (input_ids attention_mask : List (List ℤ)) (labels : Option (List ℕ)) :
    Except String (ℝ × List (List ℚ)) :=
  match crossEntropyLoss C.loss_func
      (C.computeLogits input_ids attention_mask) labels with
  | Except.ok loss => Except.ok (loss, C.computeLogits input_ids attention_mask)
  | Except.error e => Except.error e

/-- Specification-side: softmax probabilities of a logit row, over `ℝ`. -/
noncomputable def softmax (z : List ℚ) : List ℝ :=
  z.map (fun c => Real.exp ((c : ℚ) : ℝ) /
    (z.map (fun c2 => Real.exp ((c2 : ℚ) : ℝ))).sum)

/-- Specification-side label-smoothed cross entropy of one sample:
`-∑_c ((1-ε)·1[c=y] + ε/C) · log (softmax z)_c`. -/
noncomputable def specSmoothedCE (eps : ℚ) (z : List ℚ) (y : ℕ) : ℝ :=
  -(((List.range z.length).map (fun c =>
    (((1 - eps : ℚ) : ℝ) * (if c = y then 1 else 0) +
        ((eps : ℚ) : ℝ) / (z.length : ℝ)) *
      Real.log ((softmax z).getD c 0))).sum)

/-- Specification-side batch loss: mean of the per-sample smoothed cross
entropies. -/
noncomputable def specSmoothedCEMean (eps : ℚ) (logits : List (List ℚ))
    (ys : List ℕ) : ℝ :=
  (List.zipWith (specSmoothedCE eps) logits ys).sum / (logits.length : ℝ)

/-- Specification-side: the optional reduced-dimension projection (step 5 of
the spec's forward algorithm). -/
def optionalProj (o : Option Linear) (x : List ℚ) : List ℚ :=
  match o with
  | some layer => layer.apply x
  | none => x

/-! ## Experiment driver (`__main__`, lines 114-187) -/

/-- Line 117: `num_classes = 7`, a constant independent of the loaded data. -/
def num_classes : ℕ := 7

/-- Line 123: `model = BertClassifier(bert_model, num_classes)` in trial `i`:
a fresh head per trial; `params i` supplies trial `i`'s fresh random layer
initialisations and `bert_model i` the freshly loaded encoder of trial `i`;
every other constructor argument keeps its default. -/
def trialModel (params : ℕ → ℕ → ℕ → Bool → Linear) (bert_model : ℕ → Encoder)
    (i : ℕ) : BertClassifier :=
  BertClassifier.init (params i) (bert_model i) num_classes

/-- Lines 114-183: `acc_list = []` then
`for i in range(5): ...; acc_list.append(acc)`, with `acc i` the accuracy
measured by trial `i`. -/
def accLoop (acc : ℕ → ℚ) : List ℚ :=
  (List.range 5).foldl (fun acc_list i => acc_list ++ [acc i]) []

/-- Deterministic stand-in for the framework's random `nn.Linear`
initialisation, used to instantiate constructions in witnesses. -/
def onesLinear (nin nout : ℕ) (b : Bool) : Linear :=
  { weight := List.replicate nout (List.replicate nin 1)
    bias := if b then some (List.replicate nout 0) else none }

/-- A toy encoder for witnesses: one hidden-state layer, batch 2, sequence
length 2, hidden size 2. -/
def toyEncoder : Encoder :=
  { hidden_size := 2
    run := fun _ _ => [[[[1, 2], [3, 4]], [[5, 6], [7, 8]]]] }

/-- A toy three-class head built by the actual constructor. -/
def toyClassifier : BertClassifier := BertClassifier.init onesLinear toyEncoder 3

theorem Linear.apply_length (l : Linear) (x : List ℚ) (nout : ℕ)
    (hw : l.weight.length = nout) (hb : ∀ b ∈ l.bias, b.length = nout) :
    (l.apply x).length = nout := by
  unfold Linear.apply
  cases hbias : l.bias with
  | none => simp [hw]
  | some b =>
    have hbl : b.length = nout := hb b (by rw [hbias]; rfl)
    simp [List.length_zipWith, hw, hbl]

/-- Applying `permute(1, 0, 2)` followed by `[0]` pools the position-0 embedding of
every batch element, provided each batch element is nonempty (sequence
length at least 1). -/
theorem permute102_headD (t : List (List (List ℚ)))
    (hpos : ∀ row ∈ t, row ≠ []) :
    (permute102 t).headD [] = t.map (fun row => row.getD 0 []) := by
  unfold permute102
  cases t with
  | nil => simp
  | cons r rs =>
    have hr : r ≠ [] := hpos r (List.mem_cons_self r rs)
    obtain ⟨k, hk⟩ : ∃ k, r.length = k + 1 := by
      cases hr2 : r.length with
      | zero => exact absurd (List.length_eq_zero.mp hr2) hr
      | succ k => exact ⟨k, rfl⟩
    simp only [List.headD_cons]
    rw [hk, List.range_succ_eq_map, List.map_cons, List.headD_cons]

theorem BertClassifier.applyHead_eq (C : BertClassifier) (cls : List (List ℚ)) :
    C.applyHead cls =
      cls.map (fun v => C.classifier.apply (optionalProj C.feat_shrink_layer v)) := by
  unfold BertClassifier.applyHead optionalProj
  cases h : C.feat_shrink_layer with
  | none => simp [h]
  | some layer => simp [h, List.map_map, Function.comp]

/-- The logits are the classifier (after the optional projection) applied to
the position-0 embedding of every batch element of the last hidden layer. -/
theorem computeLogits_eq (C : BertClassifier)
    (input_ids attention_mask : List (List ℤ)) (hidden : List (List (List ℚ)))
    (hlast : (C.bert_encoder.run input_ids attention_mask).getLastD [] = hidden)
    (hnil : ∀ row ∈ hidden, row ≠ []) :
    C.computeLogits input_ids attention_mask =
      hidden.map (fun row =>
        C.classifier.apply (optionalProj C.feat_shrink_layer (row.getD 0 []))) := by
  unfold BertClassifier.computeLogits
  rw [show dropoutApply C.dropout
      ((C.bert_encoder.run input_ids attention_mask).getLastD []) = hidden from hlast]
  rw [permute102_headD hidden hnil, C.applyHead_eq, List.map_map]
  simp [Function.comp]

/-- C3: for every valid input batch, the forward pass's logits tensor has
one row per batch element and `n_labels` columns, independent of the input
sequence length, and equals the (optionally projected) linear classifier
applied to the sequence-position-0 embedding of the final hidden layer. -/
theorem claim_C3_logits_shape (C : BertClassifier)
    (input_ids attention_mask : List (List ℤ)) (B L : ℕ)
    (hidden : List (List (List ℚ)))
    (hlast : (C.bert_encoder.run input_ids attention_mask).getLastD [] = hidden)
    (hB : hidden.length = B)
    (hL : ∀ row ∈ hidden, row.length = L) (hLpos : 0 < L)
    (hw : C.classifier.weight.length = C.n_labels)
    (hb : ∀ b ∈ C.classifier.bias, b.length = C.n_labels) :
    (C.computeLogits input_ids attention_mask).length = B ∧
    (∀ row ∈ C.computeLogits input_ids attention_mask,
      row.length = C.n_labels) ∧
    C.computeLogits input_ids attention_mask =
      hidden.map (fun row =>
        C.classifier.apply (optionalProj C.feat_shrink_layer (row.getD 0 []))) := by
  have hnil : ∀ row ∈ hidden, row ≠ [] := by
    intro row hrow hempty
    have := hL row hrow
    rw [hempty] at this
    simp at this
    omega
  have hcls := computeLogits_eq C input_ids attention_mask hidden hlast hnil
  refine ⟨?_, ?_, hcls⟩
  · rw [hcls, List.length_map, hB]
  · rw [hcls]
    intro row hrow
    obtain ⟨v, _, rfl⟩ := List.mem_map.mp hrow
    exact Linear.apply_length C.classifier _ C.n_labels hw hb

theorem claim_C3_witness :
    ((toyClassifier.computeLogits [] []).length = 2 ∧
      (∀ row ∈ toyClassifier.computeLogits [] [],
        row.length = toyClassifier.n_labels) ∧
      toyClassifier.computeLogits [] [] =
        ([[[1, 2], [3, 4]], [[5, 6], [7, 8]]] : List (List (List ℚ))).map
          (fun row => toyClassifier.classifier.apply
            (optionalProj toyClassifier.feat_shrink_layer (row.getD 0 [])))) :=
  claim_C3_logits_shape toyClassifier [] [] 2 2 [[[1, 2], [3, 4]], [[5, 6], [7, 8]]]
    rfl rfl (by decide) (by decide) (by decide)
    (by
      intro b hb
      have : toyClassifier.classifier.bias = some [0, 0, 0] := by decide
      rw [this] at hb
      have hb2 : b = [0, 0, 0] := by cases hb; rfl
      rw [hb2]
      rfl)

/-- C2: the forward pass computes the loss unconditionally — with
`labels=None` the loss call itself fails, so there is no guard and no
label-less inference path returning only logits; every successful result
pairs the logits with a successfully computed loss on supplied labels. -/
theorem claim_C2_unconditional_loss (C : BertClassifier)
    (input_ids attention_mask : List (List ℤ)) :
    C.forward input_ids attention_mask none =
      Except.error "cross_entropy: labels is None" ∧
    ∀ labels r, C.forward input_ids attention_mask labels = Except.ok r →
      ∃ ys, labels = some ys ∧
        crossEntropyLoss C.loss_func (C.computeLogits input_ids attention_mask)
          (some ys) = Except.ok r.1 ∧
        r.2 = C.computeLogits input_ids attention_mask := by
  constructor
  · rfl
  · intro labels r h
    cases labels with
    | none =>
      simp [BertClassifier.forward, crossEntropyLoss] at h
    | some ys =>
      refine ⟨ys, rfl, ?_⟩
      unfold BertClassifier.forward at h
      cases hce : crossEntropyLoss C.loss_func
          (C.computeLogits input_ids attention_mask) (some ys) with
      | error e => rw [hce] at h; simp at h
      | ok loss =>
        rw [hce] at h
        simp only [Except.ok.injEq] at h
        subst h
        exact ⟨rfl, rfl⟩

theorem sum_map_neg {α : Type} (l : List α) (f : α → ℝ) :
    (l.map (fun x => -f x)).sum = -(l.map f).sum := by
  induction l with
  | nil => simp
  | cons a t ih =>
    rw [List.map_cons, List.map_cons, List.sum_cons, List.sum_cons, ih]
    ring

theorem getD_map_of_lt (f : ℚ → ℝ) (z : List ℚ) (c : ℕ) (hc : c < z.length) :
    (z.map f).getD c 0 = f (z.getD c 0) := by
  rw [List.getD_eq_getElem (z.map f) 0 (by simpa using hc), List.getElem_map,
    List.getD_eq_getElem z 0 hc]

theorem expSum_pos (z : List ℚ) (hz : z ≠ []) :
    0 < (z.map (fun c => Real.exp ((c : ℚ) : ℝ))).sum := by
  cases z with
  | nil => exact absurd rfl hz
  | cons a t =>
    rw [List.map_cons, List.sum_cons]
    have h1 : (0 : ℝ) < Real.exp ((a : ℚ) : ℝ) := Real.exp_pos _
    have h2 : (0 : ℝ) ≤ (t.map (fun c => Real.exp ((c : ℚ) : ℝ))).sum := by
      apply List.sum_nonneg
      intro x hx
      obtain ⟨c, _, rfl⟩ := List.mem_map.mp hx
      exact (Real.exp_pos _).le
    linarith

/-- Every logit is at most the log-sum-exp of its row. -/
theorem le_logSumExp (z : List ℚ) (c : ℕ) (hc : c < z.length) :
    ((z.getD c 0 : ℚ) : ℝ) ≤ logSumExp z := by
  have hz : z ≠ [] := by
    intro h
    rw [h] at hc
    simp at hc
  have hS : 0 < (z.map (fun x => Real.exp ((x : ℚ) : ℝ))).sum := expSum_pos z hz
  have hmem : Real.exp ((z.getD c 0 : ℚ) : ℝ) ∈
      z.map (fun x => Real.exp ((x : ℚ) : ℝ)) := by
    apply List.mem_map_of_mem
    rw [List.getD_eq_getElem z 0 hc]
    exact List.getElem_mem hc
  have hle : Real.exp ((z.getD c 0 : ℚ) : ℝ) ≤
      (z.map (fun x => Real.exp ((x : ℚ) : ℝ))).sum := by
    apply List.single_le_sum _ _ hmem
    intro x hx
    obtain ⟨q, _, rfl⟩ := List.mem_map.mp hx
    exact (Real.exp_pos _).le
  calc ((z.getD c 0 : ℚ) : ℝ)
      = Real.log (Real.exp ((z.getD c 0 : ℚ) : ℝ)) := (Real.log_exp _).symm
    _ ≤ Real.log ((z.map (fun x => Real.exp ((x : ℚ) : ℝ))).sum) :=
        (Real.log_le_log_iff (Real.exp_pos _) hS).mpr hle
    _ = logSumExp z := rfl

/-- The per-sample smoothed cross entropy is non-negative for a smoothing
factor in `[0, 1]`. -/
theorem smoothedSampleCE_nonneg (eps : ℚ) (heps0 : 0 ≤ eps) (heps1 : eps ≤ 1)
    (z : List ℚ) (y : ℕ) : 0 ≤ smoothedSampleCE eps z y := by
  unfold smoothedSampleCE
  apply List.sum_nonneg
  intro x hx
  obtain ⟨c, hc, rfl⟩ := List.mem_map.mp hx
  rw [List.mem_range] at hc
  apply mul_nonneg
  · apply add_nonneg
    · apply mul_nonneg
      · have : ((1 - eps : ℚ) : ℝ) = 1 - (eps : ℝ) := by push_cast; ring
        rw [this]
        have : (eps : ℝ) ≤ 1 := by exact_mod_cast heps1
        linarith
      · split <;> norm_num
    · apply div_nonneg
      · exact_mod_cast heps0
      · exact Nat.cast_nonneg _
  · have := le_logSumExp z c hc
    linarith

/-- The source-side smoothed cross entropy (written with log-sum-exp) equals
the specification-side one (written with log-softmax). -/
theorem specSmoothedCE_eq (eps : ℚ) (z : List ℚ) (y : ℕ) :
    specSmoothedCE eps z y = smoothedSampleCE eps z y := by
  unfold specSmoothedCE smoothedSampleCE logSumExp
  rw [← sum_map_neg]
  apply congrArg List.sum
  apply List.map_congr_left
  intro c hcr
  have hc : c < z.length := List.mem_range.mp hcr
  have hz : z ≠ [] := by
    intro h
    rw [h] at hc
    simp at hc
  have hS : 0 < (z.map (fun x => Real.exp ((x : ℚ) : ℝ))).sum := expSum_pos z hz
  have hgetd : (softmax z).getD c 0 =
      Real.exp ((z.getD c 0 : ℚ) : ℝ) /
        (z.map (fun x => Real.exp ((x : ℚ) : ℝ))).sum := by
    unfold softmax
    exact getD_map_of_lt _ z c hc
  rw [hgetd, Real.log_div (Real.exp_ne_zero _) (ne_of_gt hS), Real.log_exp]
  ring

theorem crossEntropyLoss_mean_ok (eps : ℚ) (logits : List (List ℚ)) (ys : List ℕ)
    (hlen : ys.length = logits.length)
    (hrange : ∀ zy ∈ logits.zip ys, zy.2 < zy.1.length) :
    crossEntropyLoss { label_smoothing := eps, reduction := Reduction.mean }
        logits (some ys) =
      Except.ok ((List.zipWith (smoothedSampleCE eps) logits ys).sum /
        (logits.length : ℝ)) := by
  simp only [crossEntropyLoss]
  rw [if_pos ⟨hlen, hrange⟩]

theorem specSmoothedCEMean_eq (eps : ℚ) (logits : List (List ℚ)) (ys : List ℕ) :
    specSmoothedCEMean eps logits ys =
      (List.zipWith (smoothedSampleCE eps) logits ys).sum / (logits.length : ℝ) := by
  unfold specSmoothedCEMean
  have hfun : specSmoothedCE eps = smoothedSampleCE eps :=
    funext fun z => funext fun y => specSmoothedCE_eq eps z y
  rw [hfun]

theorem zipWithCE_sum_div_nonneg (eps : ℚ) (heps0 : 0 ≤ eps) (heps1 : eps ≤ 1)
    (logits : List (List ℚ)) (ys : List ℕ) :
    0 ≤ (List.zipWith (smoothedSampleCE eps) logits ys).sum /
      (logits.length : ℝ) := by
  apply div_nonneg
  · apply List.sum_nonneg
    intro x hx
    rw [← List.map_uncurry_zip_eq_zipWith] at hx
    obtain ⟨p, _, rfl⟩ := List.mem_map.mp hx
    exact smoothedSampleCE_nonneg eps heps0 heps1 p.1 p.2
  · exact Nat.cast_nonneg _

/-- C4: for every valid (logits, labels) pair with every label in
`[0, num-classes)`, the head's loss function — cross entropy with label
smoothing `0.3` and mean reduction — succeeds, its value is exactly the
specification-side label-smoothed cross entropy (mean of
`-∑_c ((1-0.3)·1[c=y] + 0.3/C)·log softmax_c`), and that value is
non-negative (and, being a real number in this model, finite). -/
theorem claim_C4_smoothed_loss (logits : List (List ℚ)) (ys : List ℕ)
    (hlen : ys.length = logits.length)
    (hrange : ∀ zy ∈ logits.zip ys, zy.2 < zy.1.length) :
    crossEntropyLoss { label_smoothing := 3 / 10, reduction := Reduction.mean }
        logits (some ys) =
      Except.ok (specSmoothedCEMean (3 / 10) logits ys) ∧
    0 ≤ specSmoothedCEMean (3 / 10) logits ys := by
  constructor
  · rw [crossEntropyLoss_mean_ok (3 / 10) logits ys hlen hrange,
      specSmoothedCEMean_eq]
  · rw [specSmoothedCEMean_eq]
    exact zipWithCE_sum_div_nonneg (3 / 10) (by norm_num) (by norm_num) logits ys

theorem claim_C4_witness :
    ([1] : List ℕ).length = ([[0, 0]] : List (List ℚ)).length ∧
    (∀ zy ∈ ([[0, 0]] : List (List ℚ)).zip ([1] : List ℕ), zy.2 < zy.1.length) ∧
    (crossEntropyLoss { label_smoothing := 3 / 10, reduction := Reduction.mean }
        [[0, 0]] (some [1]) =
      Except.ok (specSmoothedCEMean (3 / 10) [[0, 0]] [1]) ∧
    0 ≤ specSmoothedCEMean (3 / 10) [[0, 0]] [1]) :=
  ⟨rfl, by decide, claim_C4_smoothed_loss [[0, 0]] [1] rfl (by decide)⟩

/-- An out-of-range target makes the loss computation fail. -/
theorem crossEntropyLoss_out_of_range (cfg : CrossEntropyCfg)
    (logits : List (List ℚ)) (ys : List ℕ)
    (hbad : ∃ zy ∈ logits.zip ys, ¬ zy.2 < zy.1.length) :
    crossEntropyLoss cfg logits (some ys) =
      Except.error "cross_entropy: target out of range" := by
  simp only [crossEntropyLoss]
  rw [if_neg]
  intro hvalid
  obtain ⟨zy, hzy, hviol⟩ := hbad
  exact hviol (hvalid.2 zy hzy)

/-- C9: every trial's classifier head is constructed with the hardcoded
`num_classes = 7` (line 117), for every trial index and whatever dataset is
loaded; as a consequence its logits rows have exactly 7 entries, and a label
outside `[0, 7)` makes the loss computation fail. -/
theorem claim_C9_hardcoded_num_classes (params : ℕ → ℕ → ℕ → Bool → Linear)
    (bert_model : ℕ → Encoder) (i : ℕ)
    (input_ids attention_mask : List (List ℤ)) (hidden : List (List (List ℚ)))
    (hlast : ((trialModel params bert_model i).bert_encoder.run input_ids
      attention_mask).getLastD [] = hidden)
    (hnil : ∀ row ∈ hidden, row ≠ [])
    (hw : (trialModel params bert_model i).classifier.weight.length = 7)
    (hb : ∀ b ∈ (trialModel params bert_model i).classifier.bias, b.length = 7)
    (logits : List (List ℚ)) (ys : List ℕ)
    (hbad : ∃ zy ∈ logits.zip ys, ¬ zy.2 < zy.1.length) :
    (trialModel params bert_model i).n_labels = 7 ∧
    (∀ row ∈ (trialModel params bert_model i).computeLogits input_ids
      attention_mask, row.length = 7) ∧
    crossEntropyLoss (trialModel params bert_model i).loss_func logits (some ys) =
      Except.error "cross_entropy: target out of range" := by
  refine ⟨rfl, ?_, crossEntropyLoss_out_of_range _ logits ys hbad⟩
  rw [computeLogits_eq (trialModel params bert_model i) input_ids attention_mask
    hidden hlast hnil]
  intro row hrow
  obtain ⟨v, _, rfl⟩ := List.mem_map.mp hrow
  exact Linear.apply_length _ _ 7 hw hb

theorem claim_C9_witness :
    ((trialModel (fun _ => onesLinear) (fun _ => toyEncoder) 0).n_labels = 7 ∧
      (∀ row ∈ (trialModel (fun _ => onesLinear) (fun _ => toyEncoder) 0).computeLogits
        [] [], row.length = 7) ∧
      crossEntropyLoss (trialModel (fun _ => onesLinear) (fun _ => toyEncoder) 0).loss_func
        [[0, 0, 0, 0, 0, 0, 0]] (some [7]) =
        Except.error "cross_entropy: target out of range") :=
  claim_C9_hardcoded_num_classes (fun _ => onesLinear) (fun _ => toyEncoder) 0
    [] [] [[[1, 2], [3, 4]], [[5, 6], [7, 8]]] rfl (by decide) (by decide)
    (by
      intro b hb
      have hsome : (trialModel (fun _ => onesLinear) (fun _ => toyEncoder) 0).classifier.bias =
          some [0, 0, 0, 0, 0, 0, 0] := by decide
      rw [hsome] at hb
      have hb2 : b = [0, 0, 0, 0, 0, 0, 0] := by cases hb; rfl
      rw [hb2]
      rfl)
    [[0, 0, 0, 0, 0, 0, 0]] [7] (by decide)

/-- C8: the driver runs exactly five trials (seeds 0 through 4), appends one
accuracy per trial — so the accumulator is `[acc 0, …, acc 4]`, of length 5,
when aggregation runs — and trial `i`'s classifier head is freshly
constructed by `BertClassifier(bert_model, num_classes)` from trial `i`'s own
inputs alone: it is unchanged if every other trial's inputs are replaced. -/
theorem claim_C8_five_fresh_trials (acc : ℕ → ℚ)
    (params : ℕ → ℕ → ℕ → Bool → Linear) (bert_model : ℕ → Encoder) (i : ℕ) :
    accLoop acc = [acc 0, acc 1, acc 2, acc 3, acc 4] ∧
    (accLoop acc).length = 5 ∧
    trialModel params bert_model i =
      BertClassifier.init (params i) (bert_model i) num_classes ∧
    trialModel params bert_model i =
      trialModel (fun _ => params i) (fun _ => bert_model i) i := by
  refine ⟨?_, ?_, rfl, rfl⟩
  · rfl
  · rfl

end FinetuneLM
